import Mathlib

/-!
The dnsgen command-line driver (`main.go`): a shallow embedding.

The Go program reads seed domains (from standard input or from a file), runs the
domain generator once per seed in its own goroutine, merges the per-seed results
in a `map[string]bool`, and prints the merged keys after `sort.Strings`.

Modelling decisions:

* Go strings are Lean `String`s.  Go compares strings byte by byte; on UTF-8
  text this is the code point order, which is the order of `String` in Lean.
* The generator (`dnsgen.DomainGenerator`, package `internal`) is not part of
  `main.go`; its `Generate` method is a field of the structure `DomainGenerator`.
* The logger has no effect on any returned value and is left out.
* The two sources of nondeterminism in `processDomains` are explicit arguments:
  the order in which the goroutines deliver on the channel `results`, and the
  order in which `range` walks the map `uniqueDomains`.  Both are given by a list
  of picks (`List Nat`), see `pickOrder`; every ordering is reachable
  (`pickOrder_surjective`).
-/

namespace Dnsgen

/-! ## Orderings chosen by the runtime -/

/-- Reorders `xs` by a list of picks: each pick `c` selects the element at index
`c % length` of what is still left; when the picks run out the rest keeps its
order.  The result is always a permutation of `xs`. -/
def pickOrder {α : Type} : List Nat → List α → List α
  | _, [] => []
  | [], x :: xs => x :: xs
  | c :: cs, x :: xs =>
    match (x :: xs).get? (c % (xs.length + 1)) with
    | some y => y :: pickOrder cs ((x :: xs).eraseIdx (c % (xs.length + 1)))
    | none => x :: xs

/-! ## Go strings: comparison and `sort.Strings` -/

/-- Lexicographic "less than" on character lists (Go: `a < b` on strings). -/
def lessChars : List Char → List Char → Bool
  | [], [] => false
  | [], _ :: _ => true
  | _ :: _, [] => false
  | a :: as, b :: bs =>
    if a < b then true else if b < a then false else lessChars as bs

/-- Go `a < b` for strings. -/
def strLess (a b : String) : Bool := lessChars a.data b.data

/-- Go `a <= b` for strings, i.e. `!(b < a)`. -/
def strLe (a b : String) : Bool := !strLess b a

/-- The standard library call `sort.Strings(x)`: `x` rearranged into increasing
order.  The order on strings is total, so the sorted rearrangement is unique and
the library's choice of algorithm is not observable; insertion sort computes it. -/
def sortStrings (x : List String) : List String :=
  List.insertionSort (fun a b => strLe a b = true) x

/-! ## The Go map `uniqueDomains : map[string]bool` -/

/-- A Go `map[string]bool`, kept as an association list in insertion order. -/
abbrev StringSet := List (String × Bool)

/-- Go `m[k] = v`: overwrite the entry of `k` when present, else add one. -/
def StringSet.assign : StringSet → String → Bool → StringSet
  | [], k, v => [(k, v)]
  | (k', v') :: m, k, v =>
    if k' = k then (k', v) :: m else (k', v') :: StringSet.assign m k v

/-- The keys of the map, in insertion order. -/
def StringSet.keys (m : StringSet) : List String := m.map Prod.fst

/-! ## The generator and `processDomains` -/

/-- The generator handed to `processDomains`; `Generate(domains, wordLen, fast)`
is its only method used by `main.go`. -/
structure DomainGenerator where
  Generate : List String → Int → Bool → List String

/-- The choices left to the Go runtime during one call of `processDomains`. -/
structure Schedule where
  -- order in which the sends of the per-domain goroutines are received from `results`
  arrival : List Nat
  -- order in which `for domain := range uniqueDomains` visits the keys
  mapIter : List Nat

/-- The values received from the channel `results`, in order of arrival: one
`Generate([]string{domain}, wordLen, fast)` per element of `domains`. -/
def receivedResults (sched : Schedule) (domains : List String)
    (generator : DomainGenerator) (wordLen : Int) (fast : Bool) : List (List String) :=
  pickOrder sched.arrival
    (domains.map (fun domain => generator.Generate [domain] wordLen fast))

/-- The loop `for result := range results { for _, domain := range result {
uniqueDomains[domain] = true } }`. -/
def collectUnique (results : List (List String)) : StringSet :=
  results.foldl
    (fun uniqueDomains result =>
      result.foldl (fun m domain => StringSet.assign m domain true) uniqueDomains)
    []

/-- Go `processDomains(domains, generator, wordLen, fast, logger)`; the second
component is the returned `error`, which is always `nil`. -/
def processDomains (sched : Schedule) (domains : List String)
    (generator : DomainGenerator) (wordLen : Int) (fast : Bool) :
    List String × Option String :=
  let uniqueDomains := collectUnique (receivedResults sched domains generator wordLen fast)
  let generated :=
    (pickOrder sched.mapIter (StringSet.keys uniqueDomains)).foldl
      (fun generated domain => generated ++ [domain]) []
  (generated, none)

/-! ## `writeOutput` -/

/-- Go `writeOutput(domains, outputPath, logger)`.  `osCreate` is the answer of
the file system to `os.Create(outputPath)`: `none` when the file is created,
`some err` otherwise.  The first component is the sequence of lines passed to
`Fprintln` / `Println` (to the file when `outputPath` is not empty, to the
console otherwise), the second the returned `error`. -/
def writeOutput (osCreate : String → Option String) (domains : List String)
    (outputPath : String) : List String × Option String :=
  let domains := sortStrings domains
  if outputPath ≠ "" then
    match osCreate outputPath with
    | some err => ([], some ("error creating output file: " ++ err))
    | none => (domains.foldl (fun written domain => written ++ [domain]) [], none)
  else
    (domains.foldl (fun printed domain => printed ++ [domain]) [], none)

/-! ## `validateWordLen` -/

/-- Go `validateWordLen(cmd, args, wordLen)`: `some message` is the returned
error, `none` is `nil`.  `cmd` and `args` are not inspected. -/
def validateWordLen {Command : Type} (_cmd : Command) (_args : List String)
    (wordLen : Int) : Option String :=
  if wordLen < 1 ∨ wordLen > 100 then
    some "word length must be between 1 and 100"
  else
    none

/-! ## Reading the seed domains (`main`, the `Run` closure) -/

/-- Go `unicode.IsSpace(r)`: in Latin-1 the characters tab, line feed, vertical
tab, form feed, carriage return, space, U+0085 and U+00A0; beyond Latin-1 the
code points with the Unicode White_Space property. -/
def isSpace (r : Char) : Bool :=
  let n := r.toNat
  if n ≤ 0xFF then
    n == 0x09 || n == 0x0A || n == 0x0B || n == 0x0C || n == 0x0D || n == 0x20
      || n == 0x85 || n == 0xA0
  else
    n == 0x1680 || (0x2000 ≤ n && n ≤ 0x200A) || n == 0x2028 || n == 0x2029
      || n == 0x202F || n == 0x205F || n == 0x3000

/-- Go `strings.TrimSpace(s)`: `s` without its leading white space and then
without its trailing white space. -/
def TrimSpace (s : String) : String :=
  ⟨(s.data.dropWhile isSpace).rdropWhile isSpace⟩

/-- Go `reader.ReadString(delim)` on a `bufio.Reader` whose unread input is
`reader`: the data up to and including the first `delim`, or, when the input
ends before a `delim` is found, all remaining data together with `io.EOF`.
Returns the string, whether the error is `io.EOF`, and the input left unread. -/
def ReadString (delim : Char) (reader : List Char) : String × Bool × List Char :=
  match reader.dropWhile (fun c => c != delim) with
  | [] => (⟨reader⟩, true, [])
  | d :: rest => (⟨reader.takeWhile (fun c => c != delim) ++ [d]⟩, false, rest)

/-- The loop of the standard-input branch of `main`:
`for { line, readErr := reader.ReadString(10); if readErr != nil { break };
line = strings.TrimSpace(line); if line != "" { append } }`.
Each round that does not break consumes at least the delimiter; `none` means
the fuel ran out first. -/
def stdinLoop : Nat → List Char → List String → Option (List String)
  | 0, _, _ => none
  | fuel + 1, reader, inputDomains =>
    match ReadString (Char.ofNat 10) reader with
    | (_, true, _) => some inputDomains
    | (line, false, reader) =>
      let line := TrimSpace line
      if line ≠ "" then
        stdinLoop fuel reader (inputDomains ++ [line])
      else
        stdinLoop fuel reader inputDomains

/-- The standard-input branch of `main`: `inputDomains` after the read loop, for
the text `stdin` arriving on standard input. -/
def mainReadStdin (stdin : String) : Option (List String) :=
  stdinLoop (stdin.data.length + 1) stdin.data []

/-- Go `bufio.MaxScanTokenSize`, the buffer limit of a `bufio.Scanner`. -/
def MaxScanTokenSize : Nat := 64 * 1024

/-- Number of bytes of the UTF-8 encoding of a character sequence. -/
def byteLen (l : List Char) : Nat := (l.map Char.utf8Size).sum

/-- Go `dropCR` of `bufio.ScanLines`: drop one trailing carriage return. -/
def dropCR (data : List Char) : List Char :=
  if data.getLast? = some (Char.ofNat 13) then data.dropLast else data

/-- A `bufio.Scanner` with the default split function `ScanLines`: the input not
yet scanned, the current token (`scanner.Text()`), and the error
(`scanner.Err()`). -/
structure Scanner where
  input : List Char
  text : String
  err : Option String

/-- Go `scanner.Scan()`: advance to the next line.  It reports `false` at the
end of the input, and stops with the error `ErrTooLong` when a line does not
fit the buffer of `MaxScanTokenSize` bytes. -/
def Scanner.Scan (s : Scanner) : Bool × Scanner :=
  match s.err, s.input with
  | some _, _ => (false, s)
  | none, [] => (false, s)
  | none, c :: cs =>
    let line := (c :: cs).takeWhile (fun x => x != Char.ofNat 10)
    if MaxScanTokenSize ≤ byteLen line then
      (false, { s with err := some "bufio.Scanner: token too long" })
    else
      (true, { input := ((c :: cs).dropWhile (fun x => x != Char.ofNat 10)).drop 1,
               text := ⟨dropCR line⟩, err := none })

/-- The loop of the file branch of `main`:
`for scanner.Scan() { line := strings.TrimSpace(scanner.Text());
if line != "" { append } }`, returning `inputDomains` and the scanner as the
loop leaves them; `none` means the fuel ran out first. -/
def fileLoop : Nat → Scanner → List String → Option (List String × Scanner)
  | 0, _, _ => none
  | fuel + 1, scanner, inputDomains =>
    match Scanner.Scan scanner with
    | (false, scanner) => some (inputDomains, scanner)
    | (true, scanner) =>
      let line := TrimSpace scanner.text
      if line ≠ "" then
        fileLoop fuel scanner (inputDomains ++ [line])
      else
        fileLoop fuel scanner inputDomains

/-- The file branch of `main` for a file with content `file`: `inputDomains`
after the scan loop and the value of `scanner.Err()` (when it is not `nil` the
program logs it and exits with status 1). -/
def mainReadFile (file : String) : Option (List String × Option String) :=
  (fileLoop (file.data.length + 1) { input := file.data, text := "", err := none } []).map
    (fun r => (r.1, r.2.err))

/-! ## What the specification says about the seed list -/

/-- The lines of a text: the pieces between line feeds. -/
def linesOf (text : String) : List String :=
  (text.data.splitOn (Char.ofNat 10)).map String.mk

/-- The trimmed forms of the given lines, blank ones discarded, order kept. -/
def seedsOfLines (lines : List String) : List String :=
  (lines.map TrimSpace).filter (fun line => line ≠ "")

/-- The seed list as the specification words it: every line, white space
trimmed, blank lines discarded, in the original order. -/
def specSeedDomains (text : String) : List String :=
  seedsOfLines (linesOf text)

/-- Whether a line fits the buffer of a `bufio.Scanner`. -/
def fitsBuffer (line : String) : Bool :=
  decide (byteLen line.data < MaxScanTokenSize)

/-- A generator used in examples: two candidates per seed, the second listed
before the first in string order, and a repeated one. -/
def sampleGenerator : DomainGenerator where
  Generate := fun domains _ fast =>
    domains.flatMap (fun d =>
      if fast then ["www." ++ d] else ["www." ++ d, "dev." ++ d, "www." ++ d, "shared.example"])

/-! ## Lemmas: orderings chosen by the runtime -/

theorem perm_cons_eraseIdx_of_get? {α : Type} :
    ∀ (l : List α) (i : Nat) (y : α), l.get? i = some y → (y :: l.eraseIdx i).Perm l
  | [], _, _, h => by simp at h
  | x :: xs, 0, y, h => by
    simp only [List.get?_cons_zero, Option.some.injEq] at h
    subst h
    simp
  | x :: xs, i + 1, y, h => by
    simp only [List.get?_cons_succ] at h
    have ih := perm_cons_eraseIdx_of_get? xs i y h
    simp only [List.eraseIdx_cons_succ]
    exact (List.Perm.swap x y _).trans (List.Perm.cons x ih)

theorem pickOrder_perm {α : Type} : ∀ (cs : List Nat) (l : List α), (pickOrder cs l).Perm l
  | [], [] => by simp [pickOrder]
  | [], x :: xs => by simp [pickOrder]
  | c :: cs, [] => by simp [pickOrder]
  | c :: cs, x :: xs => by
    unfold pickOrder
    cases h : (x :: xs).get? (c % (xs.length + 1)) with
    | none => exact List.Perm.refl _
    | some y =>
      exact (List.Perm.cons y (pickOrder_perm cs _)).trans
        (perm_cons_eraseIdx_of_get? _ _ _ h)

theorem mem_pickOrder {α : Type} (cs : List Nat) (l : List α) (a : α) :
    a ∈ pickOrder cs l ↔ a ∈ l :=
  (pickOrder_perm cs l).mem_iff

/-- Every rearrangement of a list is produced by some list of picks: the two
schedule components range over all orders the runtime may choose. -/
theorem pickOrder_surjective {α : Type} :
    ∀ (m l : List α), m.Perm l → ∃ cs, pickOrder cs l = m
  | [], l, h => by
    have : l = [] := List.Perm.eq_nil (List.Perm.symm h)
    subst this
    exact ⟨[], by simp [pickOrder]⟩
  | y :: ys, l, h => by
    have hy : y ∈ l := h.subset (List.mem_cons_self y ys)
    obtain ⟨i, hi, hget⟩ := List.getElem_of_mem hy
    have hget? : l.get? i = some y := by
      rw [List.get?_eq_some]; exact ⟨hi, by simpa using hget⟩
    have hperm : ys.Perm (l.eraseIdx i) :=
      List.Perm.cons_inv (h.trans (perm_cons_eraseIdx_of_get? l i y hget?).symm)
    obtain ⟨cs, hcs⟩ := pickOrder_surjective ys (l.eraseIdx i) hperm
    refine ⟨i :: cs, ?_⟩
    cases l with
    | nil => simp at hy
    | cons x xs =>
      have hmod : i % (xs.length + 1) = i := Nat.mod_eq_of_lt (by simpa using hi)
      unfold pickOrder
      rw [hmod, hget?]
      simp [hcs]

/-! ## Lemmas: string order and `sort.Strings` -/

theorem lessChars_iff :
    ∀ (as bs : List Char), lessChars as bs = true ↔ List.Lex (fun x y : Char => x < y) as bs
  | [], [] => by
    simp only [lessChars, Bool.false_eq_true, false_iff]
    intro h; cases h
  | [], b :: bs => by
    simp only [lessChars, true_iff]
    exact List.Lex.nil
  | a :: as, [] => by
    simp only [lessChars, Bool.false_eq_true, false_iff]
    intro h; cases h
  | a :: as, b :: bs => by
    have ih := lessChars_iff as bs
    unfold lessChars
    by_cases hab : a < b
    · simp only [hab, if_true, true_iff]
      exact List.Lex.rel hab
    · by_cases hba : b < a
      · simp only [hab, hba, if_false, if_true, Bool.false_eq_true, false_iff]
        intro h
        cases h with
        | cons _ => exact lt_irrefl _ hba
        | rel h1 => exact hab h1
      · simp only [hab, hba, if_false]
        rw [ih]
        have hEq : a = b := le_antisymm (not_lt.1 hba) (not_lt.1 hab)
        subst hEq
        constructor
        · intro h; exact List.Lex.cons h
        · intro h
          cases h with
          | cons h3 => exact h3
          | rel h1 => exact absurd h1 hab

theorem strLess_iff (a b : String) : strLess a b = true ↔ a < b := by
  rw [String.lt_iff_toList_lt]
  exact lessChars_iff a.data b.data

theorem strLe_iff (a b : String) : strLe a b = true ↔ a ≤ b := by
  unfold strLe
  rw [Bool.not_eq_true', ← Bool.not_eq_true, strLess_iff]
  exact not_lt

theorem sortStrings_eq (x : List String) :
    sortStrings x = List.insertionSort (fun a b : String => a ≤ b) x := by
  unfold sortStrings
  induction x with
  | nil => rfl
  | cons a l ih =>
    simp only [List.insertionSort]
    rw [ih]
    generalize List.insertionSort (fun a b : String => a ≤ b) l = m
    induction m with
    | nil => rfl
    | cons b m ihm =>
      simp only [List.orderedInsert]
      by_cases h : a ≤ b
      · rw [if_pos ((strLe_iff a b).2 h), if_pos h]
      · rw [if_neg (fun h1 => h ((strLe_iff a b).1 h1)), if_neg h, ihm]

theorem sortStrings_sorted (x : List String) :
    List.Sorted (fun a b : String => a ≤ b) (sortStrings x) := by
  rw [sortStrings_eq]
  exact List.sorted_insertionSort _ x

theorem sortStrings_perm (x : List String) : (sortStrings x).Perm x := by
  rw [sortStrings_eq]
  exact List.perm_insertionSort _ x

theorem foldl_append_singleton {α : Type} (l : List α) :
    ∀ acc : List α, l.foldl (fun acc x => acc ++ [x]) acc = acc ++ l := by
  induction l with
  | nil => intro acc; simp
  | cons a l ih => intro acc; simp [List.foldl_cons, ih]

/-! ## Lemmas: the map `uniqueDomains` -/

theorem mem_keys_assign (m : StringSet) (k : String) (v : Bool) (s : String) :
    s ∈ StringSet.keys (StringSet.assign m k v) ↔ s = k ∨ s ∈ StringSet.keys m := by
  induction m with
  | nil => simp [StringSet.assign, StringSet.keys]
  | cons e m ih =>
    obtain ⟨k1, v1⟩ := e
    unfold StringSet.assign
    by_cases h : k1 = k
    · subst h
      simp [StringSet.keys]
    · simp only [StringSet.keys] at ih
      simp only [h, if_false, StringSet.keys, List.map_cons, List.mem_cons, ih]
      tauto

theorem nodup_keys_assign (m : StringSet) (k : String) (v : Bool)
    (h : (StringSet.keys m).Nodup) : (StringSet.keys (StringSet.assign m k v)).Nodup := by
  induction m with
  | nil => simp [StringSet.assign, StringSet.keys]
  | cons e m ih =>
    obtain ⟨k1, v1⟩ := e
    unfold StringSet.assign
    by_cases hk : k1 = k
    · subst hk
      simpa [StringSet.keys] using h
    · have h1 : k1 ∉ StringSet.keys m ∧ (StringSet.keys m).Nodup := by
        simpa [StringSet.keys] using h
      have hmem := mem_keys_assign m k v k1
      have hnot : k1 ∉ StringSet.keys (StringSet.assign m k v) := by
        rw [hmem]; rintro (h2 | h2)
        · exact hk h2
        · exact h1.1 h2
      have := ih h1.2
      simp only [hk, if_false, StringSet.keys, List.map_cons, List.nodup_cons]
      exact ⟨by simpa [StringSet.keys] using hnot, by simpa [StringSet.keys] using this⟩

theorem mem_keys_foldl_assign (result : List String) :
    ∀ (m : StringSet) (s : String),
      s ∈ StringSet.keys (result.foldl (fun m domain => StringSet.assign m domain true) m)
        ↔ s ∈ StringSet.keys m ∨ s ∈ result := by
  induction result with
  | nil => intro m s; simp
  | cons d result ih =>
    intro m s
    simp only [List.foldl_cons, ih, mem_keys_assign, List.mem_cons]
    tauto

theorem nodup_keys_foldl_assign (result : List String) :
    ∀ (m : StringSet), (StringSet.keys m).Nodup →
      (StringSet.keys (result.foldl (fun m domain => StringSet.assign m domain true) m)).Nodup := by
  induction result with
  | nil => intro m h; simpa using h
  | cons d result ih =>
    intro m h
    simp only [List.foldl_cons]
    exact ih _ (nodup_keys_assign m d true h)

theorem mem_keys_foldl_results (results : List (List String)) :
    ∀ (m : StringSet) (s : String),
      s ∈ StringSet.keys (results.foldl
          (fun uniqueDomains result =>
            result.foldl (fun m domain => StringSet.assign m domain true) uniqueDomains) m)
        ↔ s ∈ StringSet.keys m ∨ ∃ result ∈ results, s ∈ result := by
  induction results with
  | nil => intro m s; simp
  | cons r results ih =>
    intro m s
    simp only [List.foldl_cons, ih, mem_keys_foldl_assign, List.mem_cons, exists_eq_or_imp]
    tauto

theorem nodup_keys_foldl_results (results : List (List String)) :
    ∀ (m : StringSet), (StringSet.keys m).Nodup →
      (StringSet.keys (results.foldl
          (fun uniqueDomains result =>
            result.foldl (fun m domain => StringSet.assign m domain true) uniqueDomains)
          m)).Nodup := by
  induction results with
  | nil => intro m h; simpa using h
  | cons r results ih =>
    intro m h
    simp only [List.foldl_cons]
    exact ih _ (nodup_keys_foldl_assign r m h)

theorem mem_keys_collectUnique (results : List (List String)) (s : String) :
    s ∈ StringSet.keys (collectUnique results) ↔ ∃ result ∈ results, s ∈ result := by
  unfold collectUnique
  rw [mem_keys_foldl_results]
  simp [StringSet.keys]

theorem nodup_keys_collectUnique (results : List (List String)) :
    (StringSet.keys (collectUnique results)).Nodup :=
  nodup_keys_foldl_results results [] (by simp [StringSet.keys])

/-! ## Lemmas: `processDomains` and `writeOutput` -/

theorem processDomains_fst (sched : Schedule) (domains : List String)
    (generator : DomainGenerator) (wordLen : Int) (fast : Bool) :
    (processDomains sched domains generator wordLen fast).1
      = pickOrder sched.mapIter (StringSet.keys
          (collectUnique (receivedResults sched domains generator wordLen fast))) := by
  simp [processDomains, foldl_append_singleton]

theorem mem_processDomains (sched : Schedule) (domains : List String)
    (generator : DomainGenerator) (wordLen : Int) (fast : Bool) (s : String) :
    s ∈ (processDomains sched domains generator wordLen fast).1
      ↔ ∃ d ∈ domains, s ∈ generator.Generate [d] wordLen fast := by
  rw [processDomains_fst, mem_pickOrder, mem_keys_collectUnique]
  unfold receivedResults
  constructor
  · rintro ⟨r, hr, hs⟩
    rw [mem_pickOrder, List.mem_map] at hr
    obtain ⟨d, hd, rfl⟩ := hr
    exact ⟨d, hd, hs⟩
  · rintro ⟨d, hd, hs⟩
    exact ⟨_, (mem_pickOrder _ _ _).2 (List.mem_map.2 ⟨d, hd, rfl⟩), hs⟩

theorem nodup_processDomains (sched : Schedule) (domains : List String)
    (generator : DomainGenerator) (wordLen : Int) (fast : Bool) :
    (processDomains sched domains generator wordLen fast).1.Nodup := by
  rw [processDomains_fst]
  exact ((pickOrder_perm _ _).nodup_iff).2 (nodup_keys_collectUnique _)

theorem writeOutput_fst (osCreate : String → Option String) (domains : List String)
    (outputPath : String) (h : outputPath = "" ∨ osCreate outputPath = none) :
    writeOutput osCreate domains outputPath = (sortStrings domains, none) := by
  unfold writeOutput
  by_cases hp : outputPath = ""
  · simp [hp, foldl_append_singleton]
  · have hc : osCreate outputPath = none := h.resolve_left hp
    simp [hp, hc, foldl_append_singleton]

theorem sorted_lt_of_sorted_le_nodup (l : List String)
    (h1 : List.Sorted (fun a b : String => a ≤ b) l) (h2 : l.Nodup) :
    List.Sorted (fun a b : String => a < b) l := by
  unfold List.Sorted at *
  unfold List.Nodup at h2
  exact (h1.and h2).imp (fun h => lt_of_le_of_ne h.1 h.2)

theorem sortStrings_congr (l1 l2 : List String) (h1 : l1.Nodup) (h2 : l2.Nodup)
    (h : ∀ s, s ∈ l1 ↔ s ∈ l2) : sortStrings l1 = sortStrings l2 := by
  have hperm : l1.Perm l2 := (List.perm_ext_iff_of_nodup h1 h2).2 h
  exact List.eq_of_perm_of_sorted
    ((sortStrings_perm l1).trans (hperm.trans (sortStrings_perm l2).symm))
    (sortStrings_sorted l1) (sortStrings_sorted l2)

theorem writeOutput_congr (osCreate : String → Option String) (l1 l2 : List String)
    (outputPath : String) (h : sortStrings l1 = sortStrings l2) :
    writeOutput osCreate l1 outputPath = writeOutput osCreate l2 outputPath := by
  unfold writeOutput
  rw [h]

theorem mem_processDomains_congr (sched1 sched2 : Schedule) (domains1 domains2 : List String)
    (generator : DomainGenerator) (wordLen : Int) (fast : Bool)
    (h : ∀ d, d ∈ domains1 ↔ d ∈ domains2) (s : String) :
    s ∈ (processDomains sched1 domains1 generator wordLen fast).1
      ↔ s ∈ (processDomains sched2 domains2 generator wordLen fast).1 := by
  rw [mem_processDomains, mem_processDomains]
  constructor
  · rintro ⟨d, hd, hs⟩; exact ⟨d, (h d).1 hd, hs⟩
  · rintro ⟨d, hd, hs⟩; exact ⟨d, (h d).2 hd, hs⟩

/-! ## Lemmas: reading the seed domains -/

theorem isSpace_newline : isSpace (Char.ofNat 10) = true := by decide

theorem isSpace_return : isSpace (Char.ofNat 13) = true := by decide

theorem rdropWhile_dropWhile_concat (p : Char → Bool) (c : Char) (hc : p c = true) :
    ∀ l : List Char,
      ((l ++ [c]).dropWhile p).rdropWhile p = (l.dropWhile p).rdropWhile p
  | [] => by
    simp [List.dropWhile_cons, hc]
  | x :: l => by
    by_cases hx : p x = true
    · simp only [List.cons_append, List.dropWhile_cons, hx, if_true]
      exact rdropWhile_dropWhile_concat p c hc l
    · simp only [List.cons_append, List.dropWhile_cons, hx, if_false]
      exact List.rdropWhile_concat_pos p (x :: l) c hc

theorem TrimSpace_concat_space (l : List Char) (c : Char) (hc : isSpace c = true) :
    TrimSpace ⟨l ++ [c]⟩ = TrimSpace ⟨l⟩ := by
  unfold TrimSpace
  simp only [rdropWhile_dropWhile_concat isSpace c hc l]

theorem TrimSpace_dropCR (l : List Char) : TrimSpace ⟨dropCR l⟩ = TrimSpace ⟨l⟩ := by
  unfold dropCR
  by_cases h : l.getLast? = some (Char.ofNat 13)
  · rw [if_pos h]
    have hl : l.dropLast ++ [Char.ofNat 13] = l := List.dropLast_append_getLast? _ h
    conv_rhs => rw [← hl]
    exact (TrimSpace_concat_space _ _ isSpace_return).symm
  · rw [if_neg h]

theorem TrimSpace_empty : TrimSpace "" = "" := by decide

theorem seedsOfLines_cons (line : String) (lines : List String) :
    seedsOfLines (line :: lines)
      = if TrimSpace line ≠ "" then TrimSpace line :: seedsOfLines lines
        else seedsOfLines lines := by
  unfold seedsOfLines
  by_cases h : TrimSpace line = ""
  · simp [h]
  · simp [h]

theorem splitOn_of_dropWhile_nil (l : List Char)
    (h : l.dropWhile (fun c => c != Char.ofNat 10) = []) :
    l.splitOn (Char.ofNat 10) = [l] := by
  rw [List.dropWhile_eq_nil_iff] at h
  apply List.splitOnP_eq_single
  intro x hx
  have := h x hx
  simpa using this

theorem splitOn_of_dropWhile_cons (l : List Char) (d : Char) (rest : List Char)
    (h : l.dropWhile (fun c => c != Char.ofNat 10) = d :: rest) :
    l.splitOn (Char.ofNat 10)
        = l.takeWhile (fun c => c != Char.ofNat 10) :: rest.splitOn (Char.ofNat 10)
      ∧ d = Char.ofNat 10 ∧ rest.length < l.length := by
  have hd : d = Char.ofNat 10 := by
    have := List.head_dropWhile_not (fun c => c != Char.ofNat 10) l (by rw [h]; simp)
    simpa [h] using this
  have hl : l.takeWhile (fun c => c != Char.ofNat 10) ++ d :: rest = l := by
    rw [← h]; exact List.takeWhile_append_dropWhile _ l
  refine ⟨?_, hd, ?_⟩
  · conv_lhs => rw [← hl]
    unfold List.splitOn
    apply List.splitOnP_first
    · intro x hx
      have := List.mem_takeWhile_imp hx
      simpa using this
    · simp [hd]
  · have := congrArg List.length hl
    simp only [List.length_append, List.length_cons] at this
    omega

theorem splitOn_ne_nil (l : List Char) : l.splitOn (Char.ofNat 10) ≠ [] :=
  List.splitOnP_ne_nil _ l

theorem stdinLoop_eq :
    ∀ (fuel : Nat) (reader : List Char) (acc : List String), reader.length < fuel →
      stdinLoop fuel reader acc
        = some (acc ++ seedsOfLines
            (((reader.splitOn (Char.ofNat 10)).map String.mk).dropLast))
  | 0, _, _, h => absurd h (Nat.not_lt_zero _)
  | fuel + 1, reader, acc, h => by
    unfold stdinLoop ReadString
    cases hdw : reader.dropWhile (fun c => c != Char.ofNat 10) with
    | nil =>
      simp [splitOn_of_dropWhile_nil reader hdw, seedsOfLines]
    | cons d rest =>
      obtain ⟨hsplit, hd, hlen⟩ := splitOn_of_dropWhile_cons reader d rest hdw
      have hfuel : rest.length < fuel := by omega
      have hne : (rest.splitOn (Char.ofNat 10)).map String.mk ≠ [] := by
        simpa using splitOn_ne_nil rest
      have htrim : TrimSpace ⟨reader.takeWhile (fun c => c != Char.ofNat 10) ++ [d]⟩
          = TrimSpace ⟨reader.takeWhile (fun c => c != Char.ofNat 10)⟩ :=
        TrimSpace_concat_space _ _ (by rw [hd]; exact isSpace_newline)
      simp only [htrim, hsplit, List.map_cons, List.dropLast_cons_of_ne_nil hne,
        seedsOfLines_cons]
      by_cases hb : TrimSpace ⟨reader.takeWhile (fun c => c != Char.ofNat 10)⟩ = ""
      · simp only [hb, ne_eq, not_true_eq_false, if_false]
        exact stdinLoop_eq fuel rest acc hfuel
      · simp only [hb, ne_eq, not_false_eq_true, if_true]
        rw [stdinLoop_eq fuel rest _ hfuel]
        simp

theorem mainReadStdin_eq (stdin : String) :
    mainReadStdin stdin = some (seedsOfLines (linesOf stdin).dropLast) := by
  unfold mainReadStdin linesOf
  rw [stdinLoop_eq _ _ _ (Nat.lt_succ_self _)]
  simp

theorem fitsBuffer_empty : fitsBuffer "" = true := by decide

theorem takeWhile_of_dropWhile_nil (l : List Char)
    (h : l.dropWhile (fun c => c != Char.ofNat 10) = []) :
    l.takeWhile (fun c => c != Char.ofNat 10) = l := by
  have := List.takeWhile_append_dropWhile (fun c => c != Char.ofNat 10) l
  rw [h, List.append_nil] at this
  exact this

theorem fileLoop_nil (fuel : Nat) (text : String) (acc : List String) :
    (fileLoop (fuel + 1) { input := [], text := text, err := none } acc).map
        (fun r => (r.1, r.2.err)) = some (acc, none) := by
  simp [fileLoop, Scanner.Scan]

theorem fileLoop_tooLong (fuel : Nat) (c : Char) (cs : List Char) (text : String)
    (acc : List String)
    (h : MaxScanTokenSize ≤ byteLen ((c :: cs).takeWhile (fun x => x != Char.ofNat 10))) :
    (fileLoop (fuel + 1) { input := c :: cs, text := text, err := none } acc).map
        (fun r => (r.1, r.2.err)) = some (acc, some "bufio.Scanner: token too long") := by
  simp only [fileLoop, Scanner.Scan, h, if_true, Option.map_some']

theorem fileLoop_token (fuel : Nat) (c : Char) (cs : List Char) (text : String)
    (acc : List String)
    (h : ¬ MaxScanTokenSize ≤ byteLen ((c :: cs).takeWhile (fun x => x != Char.ofNat 10))) :
    fileLoop (fuel + 1) { input := c :: cs, text := text, err := none } acc
      = fileLoop fuel
          { input := ((c :: cs).dropWhile (fun x => x != Char.ofNat 10)).drop 1,
            text := ⟨dropCR ((c :: cs).takeWhile (fun x => x != Char.ofNat 10))⟩,
            err := none }
          (if TrimSpace ⟨(c :: cs).takeWhile (fun x => x != Char.ofNat 10)⟩ ≠ "" then
            acc ++ [TrimSpace ⟨(c :: cs).takeWhile (fun x => x != Char.ofNat 10)⟩]
           else acc) := by
  simp only [fileLoop, Scanner.Scan, h, if_false, TrimSpace_dropCR]
  split <;> rfl

theorem fileLoop_eq :
    ∀ (fuel : Nat) (input : List Char) (text : String) (acc : List String),
      input.length < fuel →
      (fileLoop fuel { input := input, text := text, err := none } acc).map
          (fun r => (r.1, r.2.err))
        = some (acc ++ seedsOfLines
              (((input.splitOn (Char.ofNat 10)).map String.mk).takeWhile fitsBuffer),
            if ((input.splitOn (Char.ofNat 10)).map String.mk).all fitsBuffer = true then none
            else some "bufio.Scanner: token too long") := by
  intro fuel
  induction fuel with
  | zero => intro input text acc h; exact absurd h (Nat.not_lt_zero _)
  | succ fuel ih =>
    intro input text acc h
    cases input with
    | nil =>
      rw [fileLoop_nil]
      simp [List.splitOn, fitsBuffer_empty, seedsOfLines, TrimSpace_empty]
    | cons c cs =>
      have hfuel0 : ([] : List Char).length < fuel := by
        simp only [List.length_cons, List.length_nil] at h ⊢; omega
      have hfitIff : ∀ l : List Char, fitsBuffer ⟨l⟩ = true ↔ ¬ MaxScanTokenSize ≤ byteLen l := by
        intro l; unfold fitsBuffer; simp
      by_cases hlong :
          MaxScanTokenSize ≤ byteLen ((c :: cs).takeWhile (fun x => x != Char.ofNat 10))
      · rw [fileLoop_tooLong fuel c cs text acc hlong]
        have hsplit : ∃ tl, (c :: cs).splitOn (Char.ofNat 10)
            = (c :: cs).takeWhile (fun x => x != Char.ofNat 10) :: tl := by
          cases hdw : (c :: cs).dropWhile (fun x => x != Char.ofNat 10) with
          | nil =>
            exact ⟨[], by
              rw [takeWhile_of_dropWhile_nil _ hdw]; exact splitOn_of_dropWhile_nil _ hdw⟩
          | cons d rest => exact ⟨_, (splitOn_of_dropWhile_cons _ d rest hdw).1⟩
        obtain ⟨tl, htl⟩ := hsplit
        rw [htl]
        generalize (c :: cs).takeWhile (fun x => x != Char.ofNat 10) = line at hlong
        have hfit : fitsBuffer ⟨line⟩ = false := by
          rw [← Bool.not_eq_true, hfitIff]; exact fun hn => hn hlong
        simp [hfit, seedsOfLines]
      · rw [fileLoop_token fuel c cs text acc hlong]
        cases hdw : (c :: cs).dropWhile (fun x => x != Char.ofNat 10) with
        | nil =>
          rw [splitOn_of_dropWhile_nil _ hdw, takeWhile_of_dropWhile_nil _ hdw] at *
          have hfit : fitsBuffer ⟨c :: cs⟩ = true := (hfitIff _).2 hlong
          rw [List.drop_nil, ih [] _ _ hfuel0]
          simp only [List.map_cons, List.map_nil, List.takeWhile_cons, hfit, if_true,
            List.takeWhile_nil, List.all_cons, List.all_nil, Bool.and_true,
            seedsOfLines_cons]
          by_cases hb : TrimSpace ⟨c :: cs⟩ = ""
          · simp [hb, List.splitOn, fitsBuffer_empty, seedsOfLines, TrimSpace_empty]
          · simp [hb, List.splitOn, fitsBuffer_empty, seedsOfLines, TrimSpace_empty]
        | cons d rest =>
          obtain ⟨hs, _, hlen⟩ := splitOn_of_dropWhile_cons (c :: cs) d rest hdw
          have hfuel : rest.length < fuel := by
            simp only [List.length_cons] at h hlen; omega
          rw [hs]
          generalize (c :: cs).takeWhile (fun x => x != Char.ofNat 10) = line at hlong
          have hfit : fitsBuffer ⟨line⟩ = true := (hfitIff _).2 hlong
          rw [List.drop_succ_cons, List.drop_zero, ih rest _ _ hfuel]
          simp only [List.map_cons, List.takeWhile_cons, hfit, if_true, List.all_cons,
            Bool.true_and, seedsOfLines_cons]
          by_cases hb : TrimSpace ⟨line⟩ = ""
          · simp [hb]
          · simp [hb]

theorem mainReadFile_eq (file : String) :
    mainReadFile file
      = some (seedsOfLines ((linesOf file).takeWhile fitsBuffer),
          if (linesOf file).all fitsBuffer = true then none
          else some "bufio.Scanner: token too long") := by
  unfold mainReadFile linesOf
  rw [fileLoop_eq _ _ _ _ (Nat.lt_succ_self _)]
  simp

theorem TrimSpace_head (s : String) (c : Char)
    (h : (TrimSpace s).data.head? = some c) : isSpace c = false := by
  unfold TrimSpace at h
  simp only at h
  have hne : (s.data.dropWhile isSpace).rdropWhile isSpace ≠ [] := by
    intro h0; rw [h0] at h; simp at h
  have hpre : (s.data.dropWhile isSpace).rdropWhile isSpace <+: s.data.dropWhile isSpace :=
    List.rdropWhile_prefix isSpace _
  have hne2 : s.data.dropWhile isSpace ≠ [] := by
    intro h0; rw [h0] at hne; simp at hne
  rw [List.head?_eq_head hne, Option.some.injEq, hpre.head hne] at h
  have := List.head_dropWhile_not isSpace s.data hne2
  rw [← h]
  exact this

theorem TrimSpace_last (s : String) (c : Char)
    (h : (TrimSpace s).data.getLast? = some c) : isSpace c = false := by
  unfold TrimSpace at h
  simp only at h
  have hne : (s.data.dropWhile isSpace).rdropWhile isSpace ≠ [] := by
    intro h0; rw [h0] at h; simp at h
  rw [List.getLast?_eq_getLast _ hne, Option.some.injEq] at h
  have := List.rdropWhile_last_not isSpace (s.data.dropWhile isSpace) hne
  rw [← h]
  simpa using this

theorem mem_seedsOfLines (lines : List String) (d : String) (h : d ∈ seedsOfLines lines) :
    d ≠ ""
    ∧ (∀ c, d.data.head? = some c → isSpace c = false)
    ∧ (∀ c, d.data.getLast? = some c → isSpace c = false)
    ∧ ∃ line ∈ lines, d = TrimSpace line := by
  unfold seedsOfLines at h
  simp only [List.mem_filter, List.mem_map, decide_eq_true_eq] at h
  obtain ⟨⟨line, hline, rfl⟩, hne⟩ := h
  exact ⟨hne, TrimSpace_head line, TrimSpace_last line, line, hline, rfl⟩

theorem seedsOfLines_blank (lines : List String)
    (h : ∀ line ∈ lines, TrimSpace line = "") : seedsOfLines lines = [] := by
  unfold seedsOfLines
  rw [List.filter_eq_nil_iff]
  intro a ha
  simp only [List.mem_map] at ha
  obtain ⟨line, hline, rfl⟩ := ha
  simp [h line hline]

theorem linesOf_ne_nil (text : String) : linesOf text ≠ [] := by
  unfold linesOf
  simpa using splitOn_ne_nil text.data

theorem seedsOfLines_append (l1 l2 : List String) :
    seedsOfLines (l1 ++ l2) = seedsOfLines l1 ++ seedsOfLines l2 := by
  simp [seedsOfLines]

theorem mainReadStdin_eq_spec_iff (text : String) :
    mainReadStdin text = some (specSeedDomains text)
      ↔ ∀ line, (linesOf text).getLast? = some line → TrimSpace line = "" := by
  rw [mainReadStdin_eq, Option.some.injEq]
  unfold specSeedDomains
  have hlast : (linesOf text).getLast? = some ((linesOf text).getLast (linesOf_ne_nil text)) :=
    List.getLast?_eq_getLast _ _
  have hsplit : (linesOf text).dropLast ++ [(linesOf text).getLast (linesOf_ne_nil text)]
      = linesOf text := List.dropLast_append_getLast? _ hlast
  generalize (linesOf text).getLast (linesOf_ne_nil text) = last at hlast hsplit
  rw [hlast]
  conv_lhs => rhs; rw [← hsplit]
  rw [seedsOfLines_append, List.self_eq_append_right, seedsOfLines_cons]
  constructor
  · intro h line hline
    simp only [Option.some.injEq] at hline
    subst hline
    by_contra hne
    simp [hne] at h
  · intro h
    simp [h last rfl, seedsOfLines]

theorem mainReadFile_eq_spec (text : String)
    (h : ∀ line ∈ linesOf text, fitsBuffer line = true) :
    mainReadFile text = some (specSeedDomains text, none) := by
  rw [mainReadFile_eq]
  have hall : (linesOf text).all fitsBuffer = true := List.all_eq_true.2 h
  have htw : (linesOf text).takeWhile fitsBuffer = linesOf text :=
    List.takeWhile_eq_self_iff.2 h
  rw [if_pos hall, htw]
  rfl

/-! ## The claims -/

/-- Claim C1: a string occurs in the result of `processDomains` exactly when it
occurs in `Generate([d], wordLen, fast)` for some `d` of `domains`, whatever the
runtime's choices; in particular the result set for `[a, b]` is the union of the
result sets for `[a]` and for `[b]`. -/
theorem C1_processDomains_union (sched : Schedule) (domains : List String)
    (generator : DomainGenerator) (wordLen : Int) (fast : Bool) :
    (∀ s, s ∈ (processDomains sched domains generator wordLen fast).1
        ↔ ∃ d ∈ domains, s ∈ generator.Generate [d] wordLen fast)
    ∧ ∀ (schedA schedB : Schedule) (a b s : String),
        s ∈ (processDomains sched [a, b] generator wordLen fast).1
          ↔ s ∈ (processDomains schedA [a] generator wordLen fast).1
            ∨ s ∈ (processDomains schedB [b] generator wordLen fast).1 := by
  refine ⟨fun s => mem_processDomains sched domains generator wordLen fast s, ?_⟩
  intro schedA schedB a b s
  simp only [mem_processDomains, List.mem_cons, List.mem_singleton, List.not_mem_nil,
    or_false, exists_eq_or_imp, exists_eq_left]

/-- Claim C2: the slice returned by `processDomains` contains no string twice,
for every generator (also one whose per-domain results repeat a string or
overlap between domains) and every choice of the runtime. -/
theorem C2_processDomains_nodup (sched : Schedule) (domains : List String)
    (generator : DomainGenerator) (wordLen : Int) (fast : Bool) :
    (processDomains sched domains generator wordLen fast).1.Nodup :=
  nodup_processDomains sched domains generator wordLen fast

/-- Claim C3 as stated fails: for the seed `a.com` and the sample generator, with
the map walked in insertion order, `processDomains` returns
`["www.a.com", "dev.a.com", "shared.example"]`, which is not in ascending order. -/
theorem C3_processDomains_unsorted :
    (processDomains ⟨[], []⟩ ["a.com"] sampleGenerator 6 false).1
        = ["www.a.com", "dev.a.com", "shared.example"]
    ∧ ¬ List.Sorted (fun a b : String => a ≤ b)
        (processDomains ⟨[], []⟩ ["a.com"] sampleGenerator 6 false).1 := by
  have h : (processDomains ⟨[], []⟩ ["a.com"] sampleGenerator 6 false).1
      = ["www.a.com", "dev.a.com", "shared.example"] := by decide
  refine ⟨h, ?_⟩
  rw [h]
  intro hs
  have h1 : ("www.a.com" : String) ≤ "dev.a.com" := by
    have := List.rel_of_sorted_cons hs "dev.a.com" (by simp)
    exact this
  rw [← strLe_iff] at h1
  exact absurd h1 (by decide)

/-- Claim C3, amended: the ascending order is established by `sort.Strings` in
`writeOutput`, not by `processDomains`: whenever `writeOutput` has a target (the
console, or a file that could be created), the lines it emits for the result of
`processDomains` are a rearrangement of that result in ascending lexicographic
order, and no error is returned. -/
theorem C3_sorted_by_writeOutput (osCreate : String → Option String) (outputPath : String)
    (sched : Schedule) (domains : List String) (generator : DomainGenerator)
    (wordLen : Int) (fast : Bool)
    (hTarget : outputPath = "" ∨ osCreate outputPath = none) :
    List.Sorted (fun a b : String => a ≤ b)
        (writeOutput osCreate (processDomains sched domains generator wordLen fast).1
          outputPath).1
    ∧ (writeOutput osCreate (processDomains sched domains generator wordLen fast).1
          outputPath).1.Perm (processDomains sched domains generator wordLen fast).1
    ∧ (writeOutput osCreate (processDomains sched domains generator wordLen fast).1
          outputPath).2 = none := by
  rw [writeOutput_fst osCreate _ outputPath hTarget]
  exact ⟨sortStrings_sorted _, sortStrings_perm _, rfl⟩

theorem C3_sorted_by_writeOutput_witness :
    List.Sorted (fun a b : String => a ≤ b)
        (writeOutput (fun _ => none)
          (processDomains ⟨[], []⟩ ["a.com"] sampleGenerator 6 false).1 "out.txt").1
    ∧ (writeOutput (fun _ => none)
          (processDomains ⟨[], []⟩ ["a.com"] sampleGenerator 6 false).1 "out.txt").1.Perm
        (processDomains ⟨[], []⟩ ["a.com"] sampleGenerator 6 false).1
    ∧ (writeOutput (fun _ => none)
          (processDomains ⟨[], []⟩ ["a.com"] sampleGenerator 6 false).1 "out.txt").2 = none :=
  C3_sorted_by_writeOutput (fun _ => none) "out.txt" ⟨[], []⟩ ["a.com"] sampleGenerator 6 false
    (Or.inr rfl)

/-- Claim C4: whenever `writeOutput` has a target (the console, or a file that
could be created), the lines it emits for the result of `processDomains` are
strictly increasing in lexicographic order, are as many as the elements of that
result, and are exactly the strings of that result; no error is returned. -/
theorem C4_writeOutput_lines (osCreate : String → Option String) (outputPath : String)
    (sched : Schedule) (domains : List String) (generator : DomainGenerator)
    (wordLen : Int) (fast : Bool)
    (hTarget : outputPath = "" ∨ osCreate outputPath = none) :
    List.Sorted (fun a b : String => a < b)
        (writeOutput osCreate (processDomains sched domains generator wordLen fast).1
          outputPath).1
    ∧ (writeOutput osCreate (processDomains sched domains generator wordLen fast).1
          outputPath).1.length
        = (processDomains sched domains generator wordLen fast).1.length
    ∧ (∀ s, s ∈ (writeOutput osCreate
            (processDomains sched domains generator wordLen fast).1 outputPath).1
          ↔ s ∈ (processDomains sched domains generator wordLen fast).1)
    ∧ (writeOutput osCreate (processDomains sched domains generator wordLen fast).1
          outputPath).2 = none := by
  rw [writeOutput_fst osCreate _ outputPath hTarget]
  have hperm := sortStrings_perm (processDomains sched domains generator wordLen fast).1
  refine ⟨?_, hperm.length_eq, fun s => hperm.mem_iff, rfl⟩
  exact sorted_lt_of_sorted_le_nodup _ (sortStrings_sorted _)
    (hperm.nodup_iff.2 (nodup_processDomains sched domains generator wordLen fast))

theorem C4_writeOutput_lines_witness :
    ("" = "" ∨ (fun _ : String => (none : Option String)) "" = none)
    ∧ (writeOutput (fun _ => none)
        (processDomains ⟨[1], [2, 0]⟩ ["a.com", "b.org"] sampleGenerator 6 false).1 "").1
      = ["dev.a.com", "dev.b.org", "shared.example", "www.a.com", "www.b.org"]
    ∧ List.Sorted (fun a b : String => a < b)
        (writeOutput (fun _ => none)
          (processDomains ⟨[1], [2, 0]⟩ ["a.com", "b.org"] sampleGenerator 6 false).1 "").1 :=
  ⟨Or.inl rfl, by decide,
    (C4_writeOutput_lines (fun _ => none) "" ⟨[1], [2, 0]⟩ ["a.com", "b.org"] sampleGenerator
      6 false (Or.inl rfl)).1⟩

/-- Claim C5: feeding a seed twice gives the same result set as feeding it once:
the result sets for `[d, d]` and `[d]` agree, those for `xs ++ [d, d]` and
`xs ++ [d]` agree, and so do those for any two lists with the same elements. -/
theorem C5_duplicate_seed (sched1 sched2 : Schedule) (generator : DomainGenerator)
    (wordLen : Int) (fast : Bool) (d : String) (xs : List String) :
    (∀ s, s ∈ (processDomains sched1 [d, d] generator wordLen fast).1
        ↔ s ∈ (processDomains sched2 [d] generator wordLen fast).1)
    ∧ (∀ s, s ∈ (processDomains sched1 (xs ++ [d, d]) generator wordLen fast).1
        ↔ s ∈ (processDomains sched2 (xs ++ [d]) generator wordLen fast).1)
    ∧ (∀ ys zs s, s ∈ (processDomains sched1 (xs ++ d :: ys ++ d :: zs) generator wordLen fast).1
        ↔ s ∈ (processDomains sched2 (xs ++ d :: ys ++ zs) generator wordLen fast).1) := by
  refine ⟨fun s => ?_, fun s => ?_, fun ys zs s => ?_⟩
  · exact mem_processDomains_congr _ _ _ _ _ _ _ (by intro x; simp) s
  · exact mem_processDomains_congr _ _ _ _ _ _ _ (by intro x; simp) s
  · refine mem_processDomains_congr _ _ _ _ _ _ _ ?_ s
    intro x
    simp only [List.mem_append, List.mem_cons]
    tauto

/-- Claim C6: `validateWordLen` returns an error exactly when `wordLen < 1` or
`wordLen > 100`, returns `nil` exactly for `1 ≤ wordLen ≤ 100`, accepts the
default 6, and its result does not depend on `cmd` and `args`. -/
theorem C6_validateWordLen {Command : Type} (cmd cmd2 : Command) (args args2 : List String)
    (wordLen : Int) :
    ((validateWordLen cmd args wordLen).isSome = true ↔ (wordLen < 1 ∨ wordLen > 100))
    ∧ (validateWordLen cmd args wordLen = none ↔ (1 ≤ wordLen ∧ wordLen ≤ 100))
    ∧ validateWordLen cmd args 6 = none
    ∧ validateWordLen cmd args wordLen = validateWordLen cmd2 args2 wordLen := by
  unfold validateWordLen
  refine ⟨?_, ?_, by decide, rfl⟩
  · by_cases h : wordLen < 1 ∨ wordLen > 100
    · simp [h]
    · simp [h]
  · by_cases h : wordLen < 1 ∨ wordLen > 100
    · rw [if_pos h]
      constructor
      · intro h1; cases h1
      · intro h1; omega
    · rw [if_neg h]
      constructor
      · intro _; omega
      · intro _; rfl

/-- Claim C8: the emitted lines do not depend on processing order: for two
rearrangements of the seed list and any two choices of arrival order and map
iteration order, `writeOutput` on the two results of `processDomains` emits the
same lines (and returns the same error). -/
theorem C8_output_order_independent (osCreate : String → Option String)
    (outputPath : String) (sched1 sched2 : Schedule) (domains1 domains2 : List String)
    (generator : DomainGenerator) (wordLen : Int) (fast : Bool)
    (hPerm : domains1.Perm domains2) :
    writeOutput osCreate (processDomains sched1 domains1 generator wordLen fast).1 outputPath
      = writeOutput osCreate (processDomains sched2 domains2 generator wordLen fast).1
          outputPath := by
  apply writeOutput_congr
  apply sortStrings_congr _ _ (nodup_processDomains _ _ _ _ _) (nodup_processDomains _ _ _ _ _)
  intro s
  exact mem_processDomains_congr _ _ _ _ _ _ _ (fun d => hPerm.mem_iff) s

theorem C8_output_order_independent_witness :
    (["a.com", "b.org"] : List String).Perm ["b.org", "a.com"]
    ∧ (processDomains ⟨[], []⟩ ["a.com", "b.org"] sampleGenerator 6 false).1
        ≠ (processDomains ⟨[1], [3]⟩ ["b.org", "a.com"] sampleGenerator 6 false).1
    ∧ writeOutput (fun _ => none)
          (processDomains ⟨[], []⟩ ["a.com", "b.org"] sampleGenerator 6 false).1 ""
        = writeOutput (fun _ => none)
          (processDomains ⟨[1], [3]⟩ ["b.org", "a.com"] sampleGenerator 6 false).1 "" :=
  ⟨List.Perm.swap _ _ _, by decide,
    C8_output_order_independent (fun _ => none) "" ⟨[], []⟩ ⟨[1], [3]⟩ ["a.com", "b.org"]
      ["b.org", "a.com"] sampleGenerator 6 false (List.Perm.swap _ _ _)⟩

/-- Claim C9: if for every seed `d` of the list `Generate([d], wordLen, true)` is
a subset of `Generate([d], wordLen, false)`, then the result set of
`processDomains` with `fast = true` is a subset of the result set with
`fast = false`, for the same seeds, generator and `wordLen`. -/
theorem C9_fast_subset (sched1 sched2 : Schedule) (domains : List String)
    (generator : DomainGenerator) (wordLen : Int)
    (hGen : ∀ d ∈ domains, ∀ s, s ∈ generator.Generate [d] wordLen true →
      s ∈ generator.Generate [d] wordLen false) :
    ∀ s, s ∈ (processDomains sched1 domains generator wordLen true).1 →
      s ∈ (processDomains sched2 domains generator wordLen false).1 := by
  intro s
  rw [mem_processDomains, mem_processDomains]
  rintro ⟨d, hd, hs⟩
  exact ⟨d, hd, hGen d hd s hs⟩

theorem C9_fast_subset_witness :
    (∀ d ∈ ["a.com", "b.org"], ∀ s, s ∈ sampleGenerator.Generate [d] 6 true →
        s ∈ sampleGenerator.Generate [d] 6 false)
    ∧ ∀ s, s ∈ (processDomains ⟨[1], []⟩ ["a.com", "b.org"] sampleGenerator 6 true).1 →
        s ∈ (processDomains ⟨[], [2]⟩ ["a.com", "b.org"] sampleGenerator 6 false).1 :=
  ⟨by simp [sampleGenerator],
    C9_fast_subset ⟨[1], []⟩ ⟨[], [2]⟩ ["a.com", "b.org"] sampleGenerator 6
      (by simp [sampleGenerator])⟩

/-- Claim C7 fails on the standard-input branch: for the text `a.com`, line feed,
`b.com` (no line feed after the last line) the specification's seed list is
`["a.com", "b.com"]` and the file branch collects exactly that, but the
standard-input loop breaks on `io.EOF` before it looks at the data returned with
it and collects only `["a.com"]`.  In general the standard-input branch collects
the seeds of all lines but the last, which agrees with the specification exactly
when the last line is blank (for instance when the text ends in a line feed),
and the file branch agrees with it whenever every line fits the scanner. -/
theorem C7_stdin_drops_last_line :
    (specSeedDomains "a.com\nb.com" = ["a.com", "b.com"]
      ∧ mainReadFile "a.com\nb.com" = some (["a.com", "b.com"], none)
      ∧ mainReadStdin "a.com\nb.com" = some ["a.com"])
    ∧ (∀ text, mainReadStdin text = some (seedsOfLines (linesOf text).dropLast))
    ∧ (∀ text, mainReadStdin text = some (specSeedDomains text)
        ↔ ∀ line, (linesOf text).getLast? = some line → TrimSpace line = "")
    ∧ (∀ text, (∀ line ∈ linesOf text, fitsBuffer line = true) →
        mainReadFile text = some (specSeedDomains text, none)) :=
  ⟨by decide, mainReadStdin_eq, mainReadStdin_eq_spec_iff, mainReadFile_eq_spec⟩

/-- Claim C10: on both input paths the read loop ends, and every collected seed
domain is a non-empty string without leading or trailing white space that is
the trimmed form of some line of the input; when every line is blank after
trimming the collected list is empty.  (On the file path `scanner.Err()` is
`nil` exactly when every line fits the scanner's buffer.) -/
theorem C10_seed_domains_trimmed (text : String) :
    (∃ inputDomains, mainReadStdin text = some inputDomains
      ∧ (∀ d ∈ inputDomains, d ≠ ""
          ∧ (∀ c, d.data.head? = some c → isSpace c = false)
          ∧ (∀ c, d.data.getLast? = some c → isSpace c = false)
          ∧ ∃ line ∈ linesOf text, d = TrimSpace line)
      ∧ ((∀ line ∈ linesOf text, TrimSpace line = "") → inputDomains = []))
    ∧ (∃ inputDomains err, mainReadFile text = some (inputDomains, err)
      ∧ (∀ d ∈ inputDomains, d ≠ ""
          ∧ (∀ c, d.data.head? = some c → isSpace c = false)
          ∧ (∀ c, d.data.getLast? = some c → isSpace c = false)
          ∧ ∃ line ∈ linesOf text, d = TrimSpace line)
      ∧ ((∀ line ∈ linesOf text, TrimSpace line = "") → inputDomains = [])
      ∧ (err = none ↔ ∀ line ∈ linesOf text, fitsBuffer line = true)) := by
  constructor
  · refine ⟨_, mainReadStdin_eq text, ?_, ?_⟩
    · intro d hd
      obtain ⟨h1, h2, h3, line, hline, h4⟩ := mem_seedsOfLines _ d hd
      exact ⟨h1, h2, h3, line, List.mem_of_mem_dropLast hline, h4⟩
    · intro h
      exact seedsOfLines_blank _ (fun line hl => h line (List.mem_of_mem_dropLast hl))
  · refine ⟨_, _, mainReadFile_eq text, ?_, ?_, ?_⟩
    · intro d hd
      obtain ⟨h1, h2, h3, line, hline, h4⟩ := mem_seedsOfLines _ d hd
      exact ⟨h1, h2, h3, line, (List.takeWhile_sublist _).subset hline, h4⟩
    · intro h
      exact seedsOfLines_blank _
        (fun line hl => h line ((List.takeWhile_sublist _).subset hl))
    · by_cases hall : (linesOf text).all fitsBuffer = true
      · rw [if_pos hall]
        exact ⟨fun _ => List.all_eq_true.1 hall, fun _ => rfl⟩
      · rw [if_neg hall]
        constructor
        · intro h; cases h
        · intro h; exact absurd (List.all_eq_true.2 h) hall

theorem C10_seed_domains_trimmed_witness :
    (∀ line ∈ linesOf "  \n\t\r\n ", TrimSpace line = "")
    ∧ mainReadStdin "  \n\t\r\n " = some []
    ∧ mainReadFile "  \n\t\r\n " = some ([], none)
    ∧ mainReadStdin " a.com\t\n\nb.org \r\n" = some ["a.com", "b.org"]
    ∧ ∃ inputDomains, mainReadStdin " a.com\t\n\nb.org \r\n" = some inputDomains
        ∧ ∀ d ∈ inputDomains, d ≠ "" := by
  refine ⟨by decide, by decide, by decide, by decide, ?_⟩
  obtain ⟨ds, h1, h2, _⟩ := (C10_seed_domains_trimmed " a.com\t\n\nb.org \r\n").1
  exact ⟨ds, h1, fun d hd => (h2 d hd).1⟩

end Dnsgen
